import Mathlib

/-!
# Verification of the broadcast chat server core

Shallow embedding of the server's core components, translated from the
C++ sources:

* `MessageCache` (cache.h / cache.cpp) — bounded LRU message cache
* `RoundRobinScheduler` (scheduler.h / scheduler.cpp) — circular client rotation
* `ThreadPool` worker loop (thread_pool.h / thread_pool.cpp)
* `broadcast_message` and the `handle_client` receive loop (server.cpp)

Machine integers are modelled by `Nat`/`Int`; the wall clock
(`time(nullptr)`) is passed in explicitly as a `now` argument at every
call that reads it; the network is modelled by an explicit predicate
saying which `send` calls succeed.
-/

/-! ## Finite map model of `std::unordered_map<std::string,int>` -/

/-- `index_map.find(k)`: first binding for key `k`, if any. -/
def mapFind (m : List (String × Nat)) (k : String) : Option Nat :=
  match m with
  | [] => none
  | (k2, v) :: rest => if k2 = k then some v else mapFind rest k

/-- `index_map.erase(k)`: remove any binding for key `k`. -/
def mapErase (m : List (String × Nat)) (k : String) : List (String × Nat) :=
  match m with
  | [] => []
  | (k2, v) :: rest => if k2 = k then mapErase rest k else (k2, v) :: mapErase rest k

/-- `index_map[k] = v`: bind key `k` to `v`, replacing any old binding. -/
def mapSet (m : List (String × Nat)) (k : String) (v : Nat) : List (String × Nat) :=
  (k, v) :: mapErase m k

theorem mapFind_erase_ne (m : List (String × Nat)) (k k2 : String) (h : k ≠ k2) :
    mapFind (mapErase m k) k2 = mapFind m k2 := by
  induction m with
  | nil => rfl
  | cons p rest ih =>
    obtain ⟨k3, v⟩ := p
    by_cases h3 : k3 = k
    · subst h3
      simp [mapErase, mapFind, h, ih]
    · by_cases h4 : k3 = k2
      · subst h4
        simp [mapErase, mapFind, h3]
      · simp [mapErase, mapFind, h3, h4, ih]

theorem mapFind_erase_self (m : List (String × Nat)) (k : String) :
    mapFind (mapErase m k) k = none := by
  induction m with
  | nil => rfl
  | cons p rest ih =>
    obtain ⟨k3, v⟩ := p
    by_cases h3 : k3 = k
    · simpa [mapErase, h3] using ih
    · simpa [mapErase, mapFind, h3] using ih

theorem mapFind_set_self (m : List (String × Nat)) (k : String) (v : Nat) :
    mapFind (mapSet m k v) k = some v := by
  simp [mapSet, mapFind]

theorem mapFind_set_ne (m : List (String × Nat)) (k k2 : String) (v : Nat) (h : k ≠ k2) :
    mapFind (mapSet m k v) k2 = mapFind m k2 := by
  simp only [mapSet, mapFind, if_neg h]
  exact mapFind_erase_ne m k k2 h

theorem mem_mapErase (m : List (String × Nat)) (k : String) (p : String × Nat)
    (h : p ∈ mapErase m k) : p ∈ m ∧ p.1 ≠ k := by
  induction m with
  | nil => simp [mapErase] at h
  | cons q rest ih =>
    obtain ⟨k3, v⟩ := q
    by_cases h3 : k3 = k
    · simp only [mapErase, if_pos h3] at h
      obtain ⟨hm, hk⟩ := ih h
      exact ⟨List.mem_cons_of_mem _ hm, hk⟩
    · simp only [mapErase, if_neg h3] at h
      rcases List.mem_cons.mp h with hq | hq
      · subst hq; exact ⟨List.mem_cons_self _ _, h3⟩
      · obtain ⟨hm, hk⟩ := ih hq
        exact ⟨List.mem_cons_of_mem _ hm, hk⟩

/-! ## MessageCache data model (cache.h / cache.cpp) -/

/-- `struct CacheEntry` from common.h. `time_t` fields are modelled by `Int`. -/
structure CacheEntry where
  message_id : String
  content : String
  sender : String
  timestamp : Int
  last_access : Int
  access_count : Int
  valid : Bool
  deriving Repr, DecidableEq

/-- The default-constructed `CacheEntry`. -/
def CacheEntry.empty : CacheEntry :=
  { message_id := "", content := "", sender := "", timestamp := 0,
    last_access := 0, access_count := 0, valid := false }

instance : Inhabited CacheEntry := ⟨CacheEntry.empty⟩

/-- State of a `MessageCache` object: the slot vector, configured capacity,
current size, the fingerprint→slot `index_map`, and hit/miss counters. -/
structure MessageCache where
  cache : List CacheEntry
  capacity : Nat
  size : Nat
  index_map : List (String × Nat)
  hits : Nat
  misses : Nat
  deriving Repr, DecidableEq

/-- Slot `i` of the cache vector (`cache[i]`). -/
def MessageCache.entryAt (c : MessageCache) (i : Nat) : CacheEntry :=
  c.cache.getD i CacheEntry.empty

/-- `MessageCache::MessageCache(int cap)`: throws unless `cap > 0`, else
allocates `cap` default slots. `none` models the thrown exception. -/
def MessageCache.mk0 (cap : Nat) : Option MessageCache :=
  if cap = 0 then none
  else some { cache := List.replicate cap CacheEntry.empty, capacity := cap,
              size := 0, index_map := [], hits := 0, misses := 0 }

/-- `MessageCache::generate_message_id`: `sender << "_" << timestamp`. -/
def generate_message_id (sender : String) (timestamp : Int) : String :=
  sender ++ "_" ++ toString timestamp

/-- Body of the scan loop in `MessageCache::find_lru_index`: the accumulator
is the pair `(lru_index, oldest_access)`, updated when slot `i` is valid and
strictly older. -/
def lruStep (c : MessageCache) (acc : Nat × Int) (i : Nat) : Nat × Int :=
  if (c.entryAt i).valid && (c.entryAt i).last_access < acc.2 then
    (i, (c.entryAt i).last_access)
  else acc

/-- `MessageCache::find_lru_index`: linear scan over slots `1..size-1`,
seeded with slot 0's `last_access` (read unconditionally), replacing the
candidate whenever a valid slot has strictly smaller `last_access`. -/
def MessageCache.find_lru_index (c : MessageCache) : Nat :=
  if c.size = 0 then 0
  else (((List.range c.size).drop 1).foldl (lruStep c) (0, (c.entryAt 0).last_access)).1

/-- The entry written by `MessageCache::insert`: fresh fingerprint, the
given payload, `last_access` set to the insertion time, `access_count` 1,
and the validity flag raised. -/
def newCacheEntry (sender content : String) (timestamp now : Int) : CacheEntry :=
  { message_id := generate_message_id sender timestamp, content := content,
    sender := sender, timestamp := timestamp, last_access := now,
    access_count := 1, valid := true }

/-- `MessageCache::insert(sender, content, timestamp)`; `now` is the value
`time(nullptr)` returns during the call. Returns the C++ `bool` result
together with the post-state. -/
def MessageCache.insert (c : MessageCache) (sender content : String)
    (timestamp now : Int) : Bool × MessageCache :=
  let msg_id := generate_message_id sender timestamp
  match mapFind c.index_map msg_id with
  | some _ => (false, c)
  | none =>
    let p : Nat × Nat × List (String × Nat) :=
      if c.size < c.capacity then
        (c.size, c.size + 1, c.index_map)
      else
        let idx := c.find_lru_index
        (idx, c.size,
          if (c.entryAt idx).valid then mapErase c.index_map (c.entryAt idx).message_id
          else c.index_map)
    let insert_index := p.1
    (true,
      { c with cache := c.cache.set insert_index (newCacheEntry sender content timestamp now),
               size := p.2.1,
               index_map := mapSet p.2.2 msg_id insert_index })

/-- `MessageCache::lookup(message_id, content&)`: read-only on the slots and
index; bumps exactly one of the hit/miss counters. The `Option String`
models the out-parameter together with the `bool` result. -/
def MessageCache.lookup (c : MessageCache) (message_id : String) :
    Option String × MessageCache :=
  match mapFind c.index_map message_id with
  | some index =>
    if index < c.size && (c.entryAt index).valid then
      (some (c.entryAt index).content, { c with hits := c.hits + 1 })
    else
      (none, { c with misses := c.misses + 1 })
  | none => (none, { c with misses := c.misses + 1 })

/-- The in-place entry update performed by `MessageCache::update_access`:
refresh `last_access` to the current time and bump `access_count`. -/
def touchEntry (e : CacheEntry) (now : Int) : CacheEntry :=
  { e with last_access := now, access_count := e.access_count + 1 }

/-- `MessageCache::update_access(message_id)`: refresh `last_access` and bump
`access_count` of the mapped slot, if live. -/
def MessageCache.update_access (c : MessageCache) (message_id : String)
    (now : Int) : MessageCache :=
  match mapFind c.index_map message_id with
  | some index =>
    if index < c.size && (c.entryAt index).valid then
      { c with cache := c.cache.set index (touchEntry (c.entryAt index) now) }
    else c
  | none => c

/-- One iteration of the clearing loop in `MessageCache::clear`: drop the
validity flag and wipe the strings, keeping the numeric fields. -/
def clearEntry (e : CacheEntry) : CacheEntry :=
  { e with valid := false, message_id := "", content := "", sender := "" }

/-- The slot-clearing loop of `MessageCache::clear`: apply `clearEntry` to
the first `n` slots. -/
def clearSlots (l : List CacheEntry) (n : Nat) : List CacheEntry :=
  match l, n with
  | [], _ => []
  | l, 0 => l
  | e :: rest, n + 1 => clearEntry e :: clearSlots rest n

/-- `MessageCache::clear()`. -/
def MessageCache.clear (c : MessageCache) : MessageCache :=
  { c with cache := clearSlots c.cache c.size,
           index_map := [], size := 0, hits := 0, misses := 0 }

/-- `MessageCache::get_hit_rate()`: percentage over `ℚ` (the C++ `double`
arithmetic here is exact for these operands' interesting property: 0 when
no lookups have happened). -/
def MessageCache.get_hit_rate (c : MessageCache) : ℚ :=
  if c.hits + c.misses = 0 then 0
  else ((c.hits : ℚ) / ((c.hits : ℚ) + (c.misses : ℚ))) * 100

/-! ## Cache operation sequences -/

/-- One public mutating/observing call on the cache, with the clock value
observed by that call where the C++ reads `time(nullptr)`. -/
inductive CacheOp where
  | insert (sender content : String) (timestamp now : Int)
  | lookup (message_id : String)
  | update_access (message_id : String) (now : Int)
  | clear
  deriving Repr

/-- Apply one operation, dropping the returned value. -/
def applyOp (c : MessageCache) (op : CacheOp) : MessageCache :=
  match op with
  | .insert s content ts now => (c.insert s content ts now).2
  | .lookup mid => (c.lookup mid).2
  | .update_access mid now => c.update_access mid now
  | .clear => c.clear

/-- Run a sequence of operations left to right. -/
def runOps (c : MessageCache) (ops : List CacheOp) : MessageCache :=
  ops.foldl applyOp c

/-! ## The cache representation invariant -/

/-- Representation invariant of `MessageCache`: the capacity is positive
(enforced by the constructor), the slot vector has exactly `capacity`
entries, `size ≤ capacity`, a slot is valid iff its index is below `size`,
every binding in `index_map` points at a slot below `size` that holds that
fingerprint, and every occupied slot's fingerprint maps back to that slot. -/
def CacheInv (c : MessageCache) : Prop :=
  0 < c.capacity ∧
  c.cache.length = c.capacity ∧
  c.size ≤ c.capacity ∧
  (∀ i < c.capacity, ((c.entryAt i).valid = true ↔ i < c.size)) ∧
  (∀ p ∈ c.index_map, p.2 < c.size ∧ (c.entryAt p.2).message_id = p.1) ∧
  (∀ i < c.size, mapFind c.index_map (c.entryAt i).message_id = some i)

instance (c : MessageCache) : Decidable (CacheInv c) := by
  unfold CacheInv
  infer_instance

/-! ## Basic slot lemmas -/

theorem getD_set_self {α : Type} (l : List α) (i : Nat) (e d : α)
    (h : i < l.length) : (l.set i e).getD i d = e := by
  simp [List.getD_eq_getElem?_getD, List.getElem?_set_self h]

theorem getD_set_ne {α : Type} (l : List α) (i j : Nat) (e d : α)
    (h : i ≠ j) : (l.set i e).getD j d = l.getD j d := by
  simp [List.getD_eq_getElem?_getD, List.getElem?_set_ne h]

theorem length_clearSlots (l : List CacheEntry) (n : Nat) :
    (clearSlots l n).length = l.length := by
  induction l generalizing n with
  | nil => cases n <;> rfl
  | cons e rest ih =>
    cases n with
    | zero => rfl
    | succ m => simp [clearSlots, ih]

theorem getD_clearSlots (l : List CacheEntry) (n i : Nat) (d : CacheEntry) :
    (clearSlots l n).getD i d =
      if i < n ∧ i < l.length then clearEntry (l.getD i d) else l.getD i d := by
  induction l generalizing n i with
  | nil =>
    cases n <;> simp [clearSlots]
  | cons e rest ih =>
    cases n with
    | zero => simp [clearSlots]
    | succ m =>
      cases i with
      | zero => simp [clearSlots, List.getD]
      | succ j =>
        simp only [clearSlots, List.getD_cons_succ, ih, List.length_cons]
        have hiff : (j < m ∧ j < rest.length) ↔ (j + 1 < m + 1 ∧ j + 1 < rest.length + 1) := by
          omega
        rw [if_congr hiff rfl rfl]

/-! ## Specification of the LRU scan -/

theorem lru_fold_spec (c : MessageCache)
    (hvalid : ∀ i < c.size, (c.entryAt i).valid = true)
    (n : Nat) (hn : n + 1 ≤ c.size) :
    let r := (List.range' 1 n).foldl (lruStep c) (0, (c.entryAt 0).last_access)
    r.2 = (c.entryAt r.1).last_access ∧ r.1 < n + 1 ∧
    (∀ j < n + 1, (c.entryAt r.1).last_access ≤ (c.entryAt j).last_access) ∧
    (∀ j < r.1, (c.entryAt r.1).last_access < (c.entryAt j).last_access) := by
  induction n with
  | zero =>
    refine ⟨rfl, Nat.zero_lt_one, ?_, ?_⟩
    · intro j hj
      interval_cases j
      exact le_refl _
    · intro j hj
      exact absurd hj (Nat.not_lt_zero j)
  | succ m ih =>
    have hm : m + 1 ≤ c.size := Nat.le_of_succ_le hn
    obtain ⟨hsnd, hlt, hmin, htie⟩ := ih hm
    set r := (List.range' 1 m).foldl (lruStep c) (0, (c.entryAt 0).last_access) with hr
    have hconcat : List.range' 1 (m + 1) = List.range' 1 m ++ [1 + m] := by
      have := @List.range'_concat 1 1 m
      simpa using this
    have hfold : (List.range' 1 (m + 1)).foldl (lruStep c) (0, (c.entryAt 0).last_access)
        = lruStep c r (1 + m) := by
      rw [hconcat, List.foldl_append]
      rfl
    have hvnew : (c.entryAt (1 + m)).valid = true := hvalid (1 + m) (by omega)
    have hstep : lruStep c r (1 + m) =
        if (c.entryAt (1 + m)).last_access < (c.entryAt r.1).last_access then
          (1 + m, (c.entryAt (1 + m)).last_access)
        else r := by
      unfold lruStep
      rw [hvnew, ← hsnd]
      by_cases hcmp : (c.entryAt (1 + m)).last_access < r.2
      · simp [hcmp]
      · simp [hcmp]
    rw [hfold, hstep]
    by_cases hcmp : (c.entryAt (1 + m)).last_access < (c.entryAt r.1).last_access
    · rw [if_pos hcmp]
      refine ⟨rfl, by omega, ?_, ?_⟩
      · intro j hj
        rcases Nat.lt_or_ge j (m + 1) with hj2 | hj2
        · exact le_of_lt (lt_of_lt_of_le hcmp (hmin j hj2))
        · have : j = 1 + m := by omega
          subst this
          exact le_refl _
      · intro j hj
        have hj2 : j < m + 1 := by omega
        exact lt_of_lt_of_le hcmp (hmin j hj2)
    · rw [if_neg hcmp]
      refine ⟨hsnd, by omega, ?_, htie⟩
      intro j hj
      rcases Nat.lt_or_ge j (m + 1) with hj2 | hj2
      · exact hmin j hj2
      · have : j = 1 + m := by omega
        subst this
        exact le_of_not_lt hcmp

theorem range_drop_one (n : Nat) (h : 0 < n) :
    (List.range n).drop 1 = List.range' 1 (n - 1) := by
  obtain ⟨m, hm⟩ : ∃ m, n = m + 1 := ⟨n - 1, by omega⟩
  subst hm
  rw [List.range_eq_range' (m + 1), List.range'_succ]
  simp

/-- `find_lru_index` returns a slot below `size` holding the minimum
`last_access` among all slots below `size`, and every slot before it is
strictly younger (so ties go to the lowest index) — provided all slots
below `size` are valid, as the representation invariant guarantees. -/
theorem find_lru_index_spec (c : MessageCache)
    (hvalid : ∀ i < c.size, (c.entryAt i).valid = true) (hs : 0 < c.size) :
    c.find_lru_index < c.size ∧
    (∀ j < c.size, (c.entryAt c.find_lru_index).last_access ≤ (c.entryAt j).last_access) ∧
    (∀ j < c.find_lru_index,
      (c.entryAt c.find_lru_index).last_access < (c.entryAt j).last_access) := by
  obtain ⟨m, hm⟩ : ∃ m, c.size = m + 1 := ⟨c.size - 1, by omega⟩
  have hspec := lru_fold_spec c hvalid m (by omega)
  unfold MessageCache.find_lru_index
  rw [if_neg (by omega)]
  rw [range_drop_one c.size hs, hm]
  simp only [Nat.add_sub_cancel]
  obtain ⟨_, hlt, hmin, htie⟩ := hspec
  exact ⟨by omega, by rw [← hm] at hmin; exact fun j hj => hmin j (by omega), htie⟩

/-! ## Unfolding lemmas for `insert` -/

theorem insert_eq_dup (c : MessageCache) (s content : String) (ts now : Int) (i : Nat)
    (h : mapFind c.index_map (generate_message_id s ts) = some i) :
    c.insert s content ts now = (false, c) := by
  simp only [MessageCache.insert, h]

theorem insert_eq_notfull (c : MessageCache) (s content : String) (ts now : Int)
    (hnew : mapFind c.index_map (generate_message_id s ts) = none)
    (hlt : c.size < c.capacity) :
    c.insert s content ts now =
      (true,
        { c with
            cache := c.cache.set c.size (newCacheEntry s content ts now),
            size := c.size + 1,
            index_map := mapSet c.index_map (generate_message_id s ts) c.size }) := by
  simp only [MessageCache.insert, hnew, if_pos hlt]

theorem insert_eq_full (c : MessageCache) (s content : String) (ts now : Int)
    (hnew : mapFind c.index_map (generate_message_id s ts) = none)
    (hge : ¬ c.size < c.capacity)
    (hval : (c.entryAt c.find_lru_index).valid = true) :
    c.insert s content ts now =
      (true,
        { c with
            cache := c.cache.set c.find_lru_index (newCacheEntry s content ts now),
            size := c.size,
            index_map := mapSet
              (mapErase c.index_map (c.entryAt c.find_lru_index).message_id)
              (generate_message_id s ts) c.find_lru_index }) := by
  simp only [MessageCache.insert, hnew, if_neg hge, hval, if_pos]

/-! ## Preservation of the representation invariant -/

theorem mk0_inv (cap : Nat) (c : MessageCache) (h : MessageCache.mk0 cap = some c) :
    CacheInv c := by
  unfold MessageCache.mk0 at h
  by_cases hc : cap = 0
  · rw [if_pos hc] at h; cases h
  · rw [if_neg hc] at h
    cases h
    refine ⟨Nat.pos_of_ne_zero hc, by simp, Nat.zero_le _, ?_, ?_, ?_⟩
    · intro i hi
      simp only [MessageCache.entryAt, List.getD_eq_getElem?_getD, List.getElem?_replicate]
      rw [if_pos hi]
      simp [CacheEntry.empty]
    · intro p hp
      simp at hp
    · intro i hi
      exact absurd hi (Nat.not_lt_zero i)

theorem insert_preserves_inv (c : MessageCache) (hI : CacheInv c)
    (s content : String) (ts now : Int) :
    CacheInv (c.insert s content ts now).2 := by
  obtain ⟨hcap, hlen, hsz, hvalid, hmap, hback⟩ := hI
  cases hfind : mapFind c.index_map (generate_message_id s ts) with
  | some i =>
    rw [insert_eq_dup c s content ts now i hfind]
    exact ⟨hcap, hlen, hsz, hvalid, hmap, hback⟩
  | none =>
    by_cases hlt : c.size < c.capacity
    · -- free slot: write at index `size` and grow
      rw [insert_eq_notfull c s content ts now hfind hlt]
      unfold CacheInv
      simp only []
      have hszlen : c.size < c.cache.length := by omega
      refine ⟨hcap, by simp [hlen], by omega, ?_, ?_, ?_⟩
      · intro i hi
        simp only [MessageCache.entryAt]
        by_cases hieq : i = c.size
        · subst hieq
          rw [getD_set_self _ _ _ _ hszlen]
          simp [newCacheEntry]
        · rw [getD_set_ne _ _ _ _ _ (Ne.symm hieq)]
          have := hvalid i hi
          simp only [MessageCache.entryAt] at this
          rw [this]
          omega
      · intro p hp
        simp only [mapSet, List.mem_cons] at hp
        rcases hp with hp | hp
        · subst hp
          refine ⟨by omega, ?_⟩
          simp only [MessageCache.entryAt]
          rw [getD_set_self _ _ _ _ hszlen]
          rfl
        · obtain ⟨hpm, hpk⟩ := mem_mapErase _ _ _ hp
          obtain ⟨hp2, hp3⟩ := hmap p hpm
          refine ⟨by omega, ?_⟩
          simp only [MessageCache.entryAt] at hp3 ⊢
          rw [getD_set_ne _ _ _ _ _ (by omega)]
          exact hp3
      · intro i hi
        simp only [MessageCache.entryAt]
        by_cases hieq : i = c.size
        · subst hieq
          rw [getD_set_self _ _ _ _ hszlen]
          exact mapFind_set_self _ _ _
        · have hi2 : i < c.size := by omega
          rw [getD_set_ne _ _ _ _ _ (Ne.symm hieq)]
          have hbi := hback i hi2
          simp only [MessageCache.entryAt] at hbi
          have hne : generate_message_id s ts ≠ (c.cache.getD i CacheEntry.empty).message_id := by
            intro heq
            rw [← heq] at hbi
            rw [hfind] at hbi
            cases hbi
          rw [mapFind_set_ne _ _ _ _ hne]
          exact hbi
    · -- full: evict the LRU slot
      have hfull : c.size = c.capacity := by omega
      have hpos : 0 < c.size := by omega
      have hvalid2 : ∀ i < c.size, (c.entryAt i).valid = true := by
        intro i hi
        exact (hvalid i (by omega)).mpr hi
      obtain ⟨hidx, hmin, htie⟩ := find_lru_index_spec c hvalid2 hpos
      have hval : (c.entryAt c.find_lru_index).valid = true := hvalid2 _ hidx
      rw [insert_eq_full c s content ts now hfind hlt hval]
      unfold CacheInv
      simp only []
      have hidxlen : c.find_lru_index < c.cache.length := by omega
      have hmid_inj : ∀ i < c.size, i ≠ c.find_lru_index →
          (c.entryAt i).message_id ≠ (c.entryAt c.find_lru_index).message_id := by
        intro i hi hne heq
        have h1 := hback i hi
        have h2 := hback c.find_lru_index hidx
        rw [heq] at h1
        rw [h1] at h2
        cases h2
        exact hne rfl
      refine ⟨hcap, by simp [hlen], by omega, ?_, ?_, ?_⟩
      · intro i hi
        simp only [MessageCache.entryAt]
        by_cases hieq : i = c.find_lru_index
        · subst hieq
          rw [getD_set_self _ _ _ _ hidxlen]
          simp [newCacheEntry, hidx]
        · rw [getD_set_ne _ _ _ _ _ (Ne.symm hieq)]
          have := hvalid i hi
          simp only [MessageCache.entryAt] at this
          rw [this]
      · intro p hp
        simp only [mapSet, List.mem_cons] at hp
        rcases hp with hp | hp
        · subst hp
          refine ⟨hidx, ?_⟩
          simp only [MessageCache.entryAt]
          rw [getD_set_self _ _ _ _ hidxlen]
          rfl
        · obtain ⟨hpm, hpk⟩ := mem_mapErase _ _ _ hp
          obtain ⟨hpm2, hpne⟩ := mem_mapErase _ _ _ hpm
          obtain ⟨hp2, hp3⟩ := hmap p hpm2
          refine ⟨hp2, ?_⟩
          have hpidx : p.2 ≠ c.find_lru_index := by
            intro heq
            apply hpne
            rw [← hp3, heq]
          simp only [MessageCache.entryAt] at hp3 ⊢
          rw [getD_set_ne _ _ _ _ _ (Ne.symm hpidx)]
          exact hp3
      · intro i hi
        simp only [MessageCache.entryAt]
        by_cases hieq : i = c.find_lru_index
        · subst hieq
          rw [getD_set_self _ _ _ _ hidxlen]
          exact mapFind_set_self _ _ _
        · rw [getD_set_ne _ _ _ _ _ (Ne.symm hieq)]
          have hbi := hback i hi
          have hne1 : generate_message_id s ts ≠ (c.entryAt i).message_id := by
            intro heq
            rw [← heq] at hbi
            rw [hfind] at hbi
            cases hbi
          have hne2 : (c.entryAt i).message_id ≠ (c.entryAt c.find_lru_index).message_id :=
            hmid_inj i hi hieq
          simp only [MessageCache.entryAt] at hbi hne1 hne2 ⊢
          rw [mapFind_set_ne _ _ _ _ hne1, mapFind_erase_ne _ _ _ (Ne.symm hne2)]
          exact hbi

/-- `lookup` touches only the hit/miss counters: the slots, capacity, size
and fingerprint index all come back unchanged, and exactly one of the two
counters is incremented. -/
theorem lookup_frame (c : MessageCache) (mid : String) :
    (c.lookup mid).2.cache = c.cache ∧ (c.lookup mid).2.capacity = c.capacity ∧
    (c.lookup mid).2.size = c.size ∧ (c.lookup mid).2.index_map = c.index_map ∧
    (((c.lookup mid).2.hits = c.hits + 1 ∧ (c.lookup mid).2.misses = c.misses) ∨
     ((c.lookup mid).2.hits = c.hits ∧ (c.lookup mid).2.misses = c.misses + 1)) := by
  cases hfind : mapFind c.index_map mid with
  | some index =>
    by_cases hc : (index < c.size && (c.entryAt index).valid) = true
    · simp [MessageCache.lookup, hfind, hc]
    · simp [MessageCache.lookup, hfind, hc]
  | none => simp [MessageCache.lookup, hfind]

theorem cacheInv_of_eq (c d : MessageCache) (h1 : d.cache = c.cache)
    (h2 : d.capacity = c.capacity) (h3 : d.size = c.size)
    (h4 : d.index_map = c.index_map) (hI : CacheInv c) : CacheInv d := by
  unfold CacheInv MessageCache.entryAt at *
  rw [h1, h2, h3, h4]
  exact hI

theorem lookup_preserves_inv (c : MessageCache) (hI : CacheInv c) (mid : String) :
    CacheInv (c.lookup mid).2 := by
  obtain ⟨h1, h2, h3, h4, _⟩ := lookup_frame c mid
  exact cacheInv_of_eq c _ h1 h2 h3 h4 hI

theorem update_access_eq_live (c : MessageCache) (mid : String) (now : Int) (index : Nat)
    (hf : mapFind c.index_map mid = some index)
    (hcond : (index < c.size && (c.entryAt index).valid) = true) :
    c.update_access mid now =
      { c with cache := c.cache.set index (touchEntry (c.entryAt index) now) } := by
  simp only [MessageCache.update_access, hf, hcond, if_pos]

theorem update_access_eq_dead (c : MessageCache) (mid : String) (now : Int)
    (h : ∀ index, mapFind c.index_map mid = some index →
      (index < c.size && (c.entryAt index).valid) = false) :
    c.update_access mid now = c := by
  cases hf : mapFind c.index_map mid with
  | some index =>
    simp only [MessageCache.update_access, hf, h index hf]
    simp
  | none => simp only [MessageCache.update_access, hf]

theorem update_access_preserves_inv (c : MessageCache) (hI : CacheInv c)
    (mid : String) (now : Int) : CacheInv (c.update_access mid now) := by
  cases hf : mapFind c.index_map mid with
  | none => rw [update_access_eq_dead c mid now (by intro i hi; rw [hf] at hi; cases hi)]; exact hI
  | some index =>
    by_cases hcond : (index < c.size && (c.entryAt index).valid) = true
    · rw [update_access_eq_live c mid now index hf hcond]
      obtain ⟨hcap, hlen, hsz, hvalid, hmap, hback⟩ := hI
      have hidxlen : index < c.cache.length := by
        have h1 := (Bool.and_eq_true _ _).mp hcond
        have h2 : index < c.size := of_decide_eq_true h1.1
        omega
      unfold CacheInv
      simp only []
      refine ⟨hcap, by simp [hlen], hsz, ?_, ?_, ?_⟩
      · intro i hi
        simp only [MessageCache.entryAt]
        by_cases hieq : i = index
        · subst hieq
          rw [getD_set_self _ _ _ _ hidxlen]
          have := hvalid i hi
          simp only [MessageCache.entryAt] at this
          simpa [touchEntry] using this
        · rw [getD_set_ne _ _ _ _ _ (Ne.symm hieq)]
          have := hvalid i hi
          simpa [MessageCache.entryAt] using this
      · intro p hp
        obtain ⟨hp2, hp3⟩ := hmap p hp
        refine ⟨hp2, ?_⟩
        simp only [MessageCache.entryAt] at hp3 ⊢
        by_cases hpeq : p.2 = index
        · subst hpeq
          rw [getD_set_self _ _ _ _ hidxlen]
          simpa [touchEntry] using hp3
        · rw [getD_set_ne _ _ _ _ _ (Ne.symm hpeq)]
          exact hp3
      · intro i hi
        have hbi := hback i hi
        simp only [MessageCache.entryAt] at hbi ⊢
        by_cases hieq : i = index
        · subst hieq
          rw [getD_set_self _ _ _ _ hidxlen]
          simpa [touchEntry] using hbi
        · rw [getD_set_ne _ _ _ _ _ (Ne.symm hieq)]
          exact hbi
    · rw [update_access_eq_dead c mid now ?_]
      · exact hI
      · intro i hi
        rw [hf] at hi
        cases hi
        exact Bool.eq_false_iff.mpr hcond

theorem clear_preserves_inv (c : MessageCache) (hI : CacheInv c) :
    CacheInv c.clear := by
  obtain ⟨hcap, hlen, hsz, hvalid, hmap, hback⟩ := hI
  unfold MessageCache.clear CacheInv
  simp only []
  refine ⟨hcap, by simp [length_clearSlots, hlen], Nat.zero_le _, ?_, ?_, ?_⟩
  · intro i hi
    simp only [MessageCache.entryAt, getD_clearSlots]
    constructor
    · intro hv
      by_cases hc : i < c.size ∧ i < c.cache.length
      · rw [if_pos hc] at hv
        simp [clearEntry] at hv
      · rw [if_neg hc] at hv
        have := hvalid i hi
        simp only [MessageCache.entryAt] at this
        have hi2 : i < c.size := this.mp hv
        have : i < c.cache.length := by omega
        exact absurd ⟨hi2, this⟩ hc
    · intro hv
      exact absurd hv (Nat.not_lt_zero i)
  · intro p hp
    simp at hp
  · intro i hi
    exact absurd hi (Nat.not_lt_zero i)

theorem applyOp_preserves_inv (c : MessageCache) (hI : CacheInv c) (op : CacheOp) :
    CacheInv (applyOp c op) := by
  cases op with
  | insert s content ts now => exact insert_preserves_inv c hI s content ts now
  | lookup mid => exact lookup_preserves_inv c hI mid
  | update_access mid now => exact update_access_preserves_inv c hI mid now
  | clear => exact clear_preserves_inv c hI

theorem runOps_preserves_inv (c : MessageCache) (hI : CacheInv c) (ops : List CacheOp) :
    CacheInv (runOps c ops) := by
  induction ops generalizing c with
  | nil => exact hI
  | cons op rest ih => exact ih (applyOp c op) (applyOp_preserves_inv c hI op)

/-! ## Claim theorems: MessageCache -/

/-- C1: For every MessageCache at full capacity, inserting an entry with a
new fingerprint triggers exactly one eviction, and the evicted entry is the
valid entry with the smallest last-access timestamp at that moment, ties
broken by lowest slot index. Formally: under the (invariant-provided)
hypotheses that the cache is full and coherent, the insert succeeds, the
overwritten slot `find_lru_index` holds the minimum `last_access` (and every
slot before it is strictly younger, so ties go to the lowest index), the
size stays at capacity, every other slot is untouched, the evicted slot now
holds the new entry, the evicted fingerprint is gone from the index and the
new fingerprint maps to that single slot. -/
theorem lru_eviction_on_full_insert (c : MessageCache) (s content : String) (ts now : Int)
    (hlen : c.cache.length = c.capacity)
    (hfull : c.size = c.capacity) (hpos : 0 < c.capacity)
    (hvalid : ∀ i < c.size, (c.entryAt i).valid = true)
    (hback : ∀ i < c.size, mapFind c.index_map (c.entryAt i).message_id = some i)
    (hnew : mapFind c.index_map (generate_message_id s ts) = none) :
    (c.insert s content ts now).1 = true ∧
    c.find_lru_index < c.size ∧
    (∀ j < c.size,
      (c.entryAt c.find_lru_index).last_access ≤ (c.entryAt j).last_access) ∧
    (∀ j < c.find_lru_index,
      (c.entryAt c.find_lru_index).last_access < (c.entryAt j).last_access) ∧
    (c.insert s content ts now).2.size = c.size ∧
    (∀ j < c.size, j ≠ c.find_lru_index →
      (c.insert s content ts now).2.entryAt j = c.entryAt j) ∧
    (c.insert s content ts now).2.entryAt c.find_lru_index =
      newCacheEntry s content ts now ∧
    mapFind (c.insert s content ts now).2.index_map
      (c.entryAt c.find_lru_index).message_id = none ∧
    mapFind (c.insert s content ts now).2.index_map
      (generate_message_id s ts) = some c.find_lru_index := by
  have hpos' : 0 < c.size := by omega
  obtain ⟨hidx, hmin, htie⟩ := find_lru_index_spec c hvalid hpos'
  have hval : (c.entryAt c.find_lru_index).valid = true := hvalid _ hidx
  have hge : ¬ c.size < c.capacity := by omega
  have hidxlen : c.find_lru_index < c.cache.length := by omega
  rw [insert_eq_full c s content ts now hnew hge hval]
  simp only []
  have hmidne : generate_message_id s ts ≠ (c.entryAt c.find_lru_index).message_id := by
    intro heq
    have := hback _ hidx
    rw [← heq, hnew] at this
    cases this
  refine ⟨trivial, hidx, hmin, htie, trivial, ?_, ?_, ?_, mapFind_set_self _ _ _⟩
  · intro j hj hjne
    simp only [MessageCache.entryAt]
    rw [getD_set_ne _ _ _ _ _ (Ne.symm hjne)]
  · simp only [MessageCache.entryAt]
    rw [getD_set_self _ _ _ _ hidxlen]
  · rw [mapFind_set_ne _ _ _ _ hmidne]
    exact mapFind_erase_self _ _

/-- The capacity-2 cache right after construction, used by the witnesses. -/
def cacheW0 : MessageCache :=
  { cache := List.replicate 2 CacheEntry.empty, capacity := 2, size := 0,
    index_map := [], hits := 0, misses := 0 }

/-- `cacheW0` after two distinct inserts (slot 1 is the LRU: its
`last_access` 5 is smaller than slot 0's 10). -/
def cacheW2 : MessageCache :=
  ((cacheW0.insert "a" "m1" 1 10).2.insert "b" "m2" 2 5).2

theorem lru_eviction_on_full_insert_witness :
    (cacheW2.insert "c" "m3" 3 20).1 = true ∧
    cacheW2.find_lru_index < cacheW2.size ∧
    (cacheW2.insert "c" "m3" 3 20).2.size = cacheW2.size := by
  have h := lru_eviction_on_full_insert cacheW2 "c" "m3" 3 20
    (by decide) (by decide) (by decide) (by decide) (by decide) (by decide)
  exact ⟨h.1, h.2.1, h.2.2.2.2.1⟩

/-- C2: inserting a (sender, timestamp) pair while a live entry with that
fingerprint exists returns `false` and performs no mutation at all: the
post-state is the pre-state, so size, hit/miss counters, the fingerprint
index and every entry (including last-access and access-count) are
unchanged. -/
theorem insert_duplicate_rejected (c : MessageCache) (s content : String)
    (ts now : Int) (i : Nat)
    (hfind : mapFind c.index_map (generate_message_id s ts) = some i)
    (hsz : i < c.size) (hval : (c.entryAt i).valid = true)
    (hmid : (c.entryAt i).message_id = generate_message_id s ts) :
    c.insert s content ts now = (false, c) :=
  insert_eq_dup c s content ts now i hfind

theorem insert_duplicate_rejected_witness :
    cacheW2.insert "a" "other content" 1 99 = (false, cacheW2) :=
  insert_duplicate_rejected cacheW2 "a" "other content" 1 99 0
    (by decide) (by decide) (by decide) (by decide)

/-- C3: for every operation sequence starting from a cache constructed with
positive capacity, the size never exceeds the configured capacity, and the
fingerprint index is consistent: every binding points at a valid slot
holding that fingerprint, and every occupied slot's fingerprint maps back
to exactly that slot. -/
theorem cache_size_and_index_invariant (cap : Nat) (c0 : MessageCache)
    (ops : List CacheOp) (h0 : MessageCache.mk0 cap = some c0) :
    (runOps c0 ops).size ≤ (runOps c0 ops).capacity ∧
    (∀ p ∈ (runOps c0 ops).index_map,
      ((runOps c0 ops).entryAt p.2).valid = true ∧
      ((runOps c0 ops).entryAt p.2).message_id = p.1) ∧
    (∀ i < (runOps c0 ops).size,
      mapFind (runOps c0 ops).index_map ((runOps c0 ops).entryAt i).message_id
        = some i) := by
  obtain ⟨hcap, hlen, hsz, hvalid, hmap, hback⟩ :=
    runOps_preserves_inv c0 (mk0_inv cap c0 h0) ops
  refine ⟨hsz, ?_, hback⟩
  intro p hp
  obtain ⟨hp2, hp3⟩ := hmap p hp
  exact ⟨(hvalid p.2 (by omega)).mpr hp2, hp3⟩

/-- Concrete operation sequence exercising insert (with eviction), duplicate
insert, lookup hit and miss, update_access and clear. -/
def opsW : List CacheOp :=
  [CacheOp.insert "a" "m1" 1 10, CacheOp.insert "b" "m2" 2 5,
   CacheOp.insert "c" "m3" 3 20, CacheOp.insert "c" "dup" 3 21,
   CacheOp.lookup "a_1", CacheOp.lookup "nope",
   CacheOp.update_access "a_1" 30, CacheOp.clear,
   CacheOp.insert "d" "m4" 4 40]

theorem cache_size_and_index_invariant_witness :
    (runOps cacheW0 opsW).size ≤ (runOps cacheW0 opsW).capacity := by
  have h := cache_size_and_index_invariant 2 cacheW0 opsW (by decide)
  exact h.1

/-- C4: `lookup` never changes any entry, the size or the fingerprint
index — it only bumps exactly one of the hit/miss counters — while
`update_access` on a live fingerprint rewrites exactly the mapped slot,
refreshing its `last_access` to the call time and incrementing its
`access_count`, leaving every other slot, the size, the index and both
counters unchanged. -/
theorem lookup_readonly_update_access_refreshes (c : MessageCache)
    (fp fp2 : String) (now : Int) (index : Nat)
    (hf : mapFind c.index_map fp2 = some index)
    (hsz : index < c.size) (hval : (c.entryAt index).valid = true)
    (hidxlen : index < c.cache.length) :
    ((c.lookup fp).2.cache = c.cache ∧ (c.lookup fp).2.capacity = c.capacity ∧
     (c.lookup fp).2.size = c.size ∧ (c.lookup fp).2.index_map = c.index_map ∧
     (((c.lookup fp).2.hits = c.hits + 1 ∧ (c.lookup fp).2.misses = c.misses) ∨
      ((c.lookup fp).2.hits = c.hits ∧ (c.lookup fp).2.misses = c.misses + 1))) ∧
    ((c.update_access fp2 now).entryAt index =
       { c.entryAt index with last_access := now,
                              access_count := (c.entryAt index).access_count + 1 } ∧
     (∀ j, j ≠ index → (c.update_access fp2 now).entryAt j = c.entryAt j) ∧
     (c.update_access fp2 now).size = c.size ∧
     (c.update_access fp2 now).capacity = c.capacity ∧
     (c.update_access fp2 now).index_map = c.index_map ∧
     (c.update_access fp2 now).hits = c.hits ∧
     (c.update_access fp2 now).misses = c.misses) := by
  refine ⟨lookup_frame c fp, ?_⟩
  have hcond : (index < c.size && (c.entryAt index).valid) = true := by
    simp [hsz, hval]
  rw [update_access_eq_live c fp2 now index hf hcond]
  simp only []
  refine ⟨?_, ?_, trivial, trivial, trivial, trivial, trivial⟩
  · simp only [MessageCache.entryAt]
    rw [getD_set_self _ _ _ _ hidxlen]
    rfl
  · intro j hj
    simp only [MessageCache.entryAt]
    rw [getD_set_ne _ _ _ _ _ (Ne.symm hj)]

theorem lookup_readonly_update_access_refreshes_witness :
    (cacheW2.lookup "a_1").2.cache = cacheW2.cache ∧
    (cacheW2.update_access "b_2" 77).entryAt 1 =
      { cacheW2.entryAt 1 with last_access := 77,
                               access_count := (cacheW2.entryAt 1).access_count + 1 } := by
  have h := lookup_readonly_update_access_refreshes cacheW2 "a_1" "b_2" 77 1
    (by decide) (by decide) (by decide) (by decide)
  exact ⟨h.1.1, h.2.1⟩

/-! ## RoundRobinScheduler data model (scheduler.h / scheduler.cpp)

The C++ scheduler keeps a circular singly-linked list of `ScheduledClient`
nodes with a `head` and a roaming `current` pointer; `add_client` appends at
the tail (the node whose `next` is `head`). We embed the circular list as
the list of nodes in circular order starting at `head`, together with the
index of `current`: node `i`'s `next` is node `(i+1) % length`, which is
exactly the successor structure maintained by `add_client`'s tail append. -/

/-- `struct ScheduledClient` (scheduler.h) minus the raw `next` pointer,
which is represented by list adjacency. -/
structure ScheduledClient where
  socket_fd : Int
  user_id : String
  last_scheduled : Int
  deriving Repr, DecidableEq

/-- The `ScheduledClient(fd, id)` constructor: `last_scheduled` starts 0. -/
def ScheduledClient.mk0 (fd : Int) (uid : String) : ScheduledClient :=
  { socket_fd := fd, user_id := uid, last_scheduled := 0 }

/-- State of a `RoundRobinScheduler`: nodes in circular order from `head`,
and the index of `current` (meaningful only when nodes exist). -/
structure RoundRobinScheduler where
  nodes : List ScheduledClient
  cur : Nat
  deriving Repr, DecidableEq

/-- The freshly constructed scheduler: `head = current = nullptr`. -/
def RoundRobinScheduler.empty : RoundRobinScheduler :=
  { nodes := [], cur := 0 }

/-- `RoundRobinScheduler::add_client`: reject a duplicate `socket_fd`
(no-op); otherwise append after the tail; a first client becomes head and
`current`. -/
def RoundRobinScheduler.add_client (s : RoundRobinScheduler) (fd : Int)
    (uid : String) : RoundRobinScheduler :=
  if s.nodes.any (fun n => n.socket_fd = fd) then s
  else if s.nodes.isEmpty then
    { nodes := [ScheduledClient.mk0 fd uid], cur := 0 }
  else
    { nodes := s.nodes ++ [ScheduledClient.mk0 fd uid], cur := s.cur }

/-- `RoundRobinScheduler::get_next_client`: `nullptr` on an empty rotation;
otherwise stamp the node under `current` with the call time, advance
`current` to its successor, and return the stamped node. -/
def RoundRobinScheduler.get_next_client (s : RoundRobinScheduler) (now : Int) :
    Option ScheduledClient × RoundRobinScheduler :=
  if s.nodes.isEmpty then (none, s)
  else
    let sel := s.nodes.getD s.cur (ScheduledClient.mk0 0 "")
    let stamped := { sel with last_scheduled := now }
    (some stamped,
      { nodes := s.nodes.set s.cur stamped, cur := (s.cur + 1) % s.nodes.length })

/-- Register a batch of clients in order. -/
def addClients (s : RoundRobinScheduler) (l : List (Int × String)) :
    RoundRobinScheduler :=
  l.foldl (fun t p => t.add_client p.1 p.2) s

/-- Scheduler state after `k` successive `get_next_client` calls, the
`i`-th call observing clock value `nowf i`. -/
def nextIter (s : RoundRobinScheduler) (nowf : Nat → Int) : Nat → RoundRobinScheduler
  | 0 => s
  | k + 1 => ((nextIter s nowf k).get_next_client (nowf k)).2

/-- Return value of the `(k+1)`-st `get_next_client` call. -/
def nextResult (s : RoundRobinScheduler) (nowf : Nat → Int) (k : Nat) :
    Option ScheduledClient :=
  ((nextIter s nowf k).get_next_client (nowf k)).1

/-- The identity of a node: its socket plus user id (stamping the schedule
time never changes it). -/
def nodeKey (n : ScheduledClient) : Int × String :=
  (n.socket_fd, n.user_id)

theorem add_client_fresh_nonempty (s : RoundRobinScheduler) (fd : Int) (uid : String)
    (hne : s.nodes ≠ []) (hfresh : ∀ n ∈ s.nodes, n.socket_fd ≠ fd) :
    s.add_client fd uid =
      { nodes := s.nodes ++ [ScheduledClient.mk0 fd uid], cur := s.cur } := by
  unfold RoundRobinScheduler.add_client
  rw [if_neg, if_neg]
  · simpa using hne
  · simp only [List.any_eq_true, not_exists]
    intro n
    intro hcontra
    rcases hcontra with ⟨hn, hp⟩
    exact hfresh n hn (of_decide_eq_true hp)

theorem addClients_append (l : List (Int × String)) (s : RoundRobinScheduler)
    (hne : s.nodes ≠ [])
    (hfresh : ∀ p ∈ l, ∀ n ∈ s.nodes, n.socket_fd ≠ p.1)
    (hdist : l.Pairwise (fun p q => p.1 ≠ q.1)) :
    addClients s l =
      { nodes := s.nodes ++ l.map (fun p => ScheduledClient.mk0 p.1 p.2),
        cur := s.cur } := by
  induction l generalizing s with
  | nil => simp [addClients]
  | cons p rest ih =>
    have hstep : addClients s (p :: rest) = addClients (s.add_client p.1 p.2) rest := rfl
    rw [hstep, add_client_fresh_nonempty s p.1 p.2 hne
      (fun n hn => hfresh p (List.mem_cons_self _ _) n hn)]
    have hdp := List.pairwise_cons.mp hdist
    rw [ih]
    · simp
    · simp
    · intro q hq n hn
      rcases List.mem_append.mp hn with hn2 | hn2
      · exact hfresh q (List.mem_cons_of_mem _ hq) n hn2
      · have : n = ScheduledClient.mk0 p.1 p.2 := by simpa using hn2
        subst this
        exact hdp.1 q hq
    · exact hdp.2

theorem addClients_empty_eq (l : List (Int × String)) (hne : l ≠ [])
    (hdist : l.Pairwise (fun p q => p.1 ≠ q.1)) :
    addClients RoundRobinScheduler.empty l =
      { nodes := l.map (fun p => ScheduledClient.mk0 p.1 p.2), cur := 0 } := by
  cases l with
  | nil => exact absurd rfl hne
  | cons p rest =>
    have hstep : addClients RoundRobinScheduler.empty (p :: rest)
        = addClients { nodes := [ScheduledClient.mk0 p.1 p.2], cur := 0 } rest := rfl
    have hdp := List.pairwise_cons.mp hdist
    rw [hstep, addClients_append rest _ (by simp) ?_ hdp.2]
    · simp
    · intro q hq n hn
      have : n = ScheduledClient.mk0 p.1 p.2 := by simpa using hn
      subst this
      exact hdp.1 q hq

theorem map_nodeKey_set_stamp (l : List ScheduledClient) (i : Nat) (x : Int) :
    (l.set i { l.getD i (ScheduledClient.mk0 0 "") with last_scheduled := x }).map nodeKey
      = l.map nodeKey := by
  induction l generalizing i with
  | nil => simp
  | cons e rest ih =>
    cases i with
    | zero => simp [nodeKey, List.getD]
    | succ j =>
      simp only [List.getD_cons_succ, List.set_cons_succ, List.map_cons]
      rw [ih j]

theorem nodeKey_getD_of_map_eq (l1 l2 : List ScheduledClient) (i : Nat)
    (hmap : l1.map nodeKey = l2.map nodeKey) (hi : i < l1.length) :
    nodeKey (l1.getD i (ScheduledClient.mk0 0 ""))
      = nodeKey (l2.getD i (ScheduledClient.mk0 0 "")) := by
  have hlen : l1.length = l2.length := by
    have := congrArg List.length hmap
    simpa using this
  have h1 : (l1.map nodeKey)[i]? = (l2.map nodeKey)[i]? := by rw [hmap]
  rw [List.getElem?_map, List.getElem?_map] at h1
  have hi2 : i < l2.length := by omega
  rw [List.getD_eq_getElem?_getD, List.getD_eq_getElem?_getD]
  rw [List.getElem?_eq_getElem hi, List.getElem?_eq_getElem hi2] at h1 ⊢
  simpa using h1

/-- State evolution under repeated `get_next_client`: node identities are
preserved, the length is constant, and the cursor after `k` calls sits at
`k mod N`. -/
theorem nextIter_spec (s0 : RoundRobinScheduler) (nowf : Nat → Int) (N : Nat)
    (hlen : s0.nodes.length = N) (hpos : 0 < N) (hcur : s0.cur = 0) (k : Nat) :
    (nextIter s0 nowf k).nodes.length = N ∧
    (nextIter s0 nowf k).nodes.map nodeKey = s0.nodes.map nodeKey ∧
    (nextIter s0 nowf k).cur = k % N := by
  induction k with
  | zero => exact ⟨hlen, rfl, by simpa using hcur⟩
  | succ m ih =>
    obtain ⟨ihlen, ihmap, ihcur⟩ := ih
    have hne : ((nextIter s0 nowf m).nodes.isEmpty) = false := by
      rw [List.isEmpty_eq_false_iff_exists_mem]
      have : (nextIter s0 nowf m).nodes ≠ [] := by
        intro hnil
        rw [hnil] at ihlen
        simp at ihlen
        omega
      exact List.exists_mem_of_ne_nil _ this
    have hstep : nextIter s0 nowf (m + 1)
        = ((nextIter s0 nowf m).get_next_client (nowf m)).2 := rfl
    rw [hstep]
    unfold RoundRobinScheduler.get_next_client
    rw [hne]
    simp only [Bool.false_eq_true, if_neg, not_false_eq_true]
    refine ⟨by simp [ihlen], ?_, ?_⟩
    · rw [map_nodeKey_set_stamp, ihmap]
    · simp only [ihlen, ihcur]
      exact (Nat.mod_modEq m N).add_right 1

/-- C5: with N distinct clients registered (and none removed), the k-th
`get_next_client` call (k < N) returns client k in insertion order with its
`last-scheduled` stamped to that call's time, call N+1 returns the first
client again, every call advances the cursor to `(k+1) mod N` and stamps
the node that was under the cursor in place, and `get_next_client` on an
empty rotation returns nothing. -/
theorem round_robin_insertion_order (clients : List (Int × String)) (nowf : Nat → Int)
    (hdist : clients.Pairwise (fun p q => p.1 ≠ q.1)) (hne : clients ≠ []) :
    (∀ k < clients.length,
      (nextResult (addClients RoundRobinScheduler.empty clients) nowf k).map
          (fun n => (n.socket_fd, n.user_id, n.last_scheduled))
        = some ((clients.getD k (0, "")).1, (clients.getD k (0, "")).2, nowf k)) ∧
    ((nextResult (addClients RoundRobinScheduler.empty clients) nowf clients.length).map
          (fun n => (n.socket_fd, n.user_id))
        = some ((clients.getD 0 (0, "")).1, (clients.getD 0 (0, "")).2)) ∧
    (∀ k, (nextIter (addClients RoundRobinScheduler.empty clients) nowf (k + 1)).cur
        = (k + 1) % clients.length) ∧
    (∀ k, ((nextIter (addClients RoundRobinScheduler.empty clients) nowf (k + 1)).nodes.getD
          ((nextIter (addClients RoundRobinScheduler.empty clients) nowf k).cur)
          (ScheduledClient.mk0 0 "")).last_scheduled = nowf k) ∧
    (∀ now, (RoundRobinScheduler.empty.get_next_client now).1 = none) := by
  have hs0 := addClients_empty_eq clients hne hdist
  set s0 := addClients RoundRobinScheduler.empty clients with hs0def
  set N := clients.length with hN
  have hpos : 0 < N := List.length_pos.mpr hne
  have hlen : s0.nodes.length = N := by rw [hs0]; simp
  have hcur : s0.cur = 0 := by rw [hs0]
  have hgetD : ∀ j < N,
      nodeKey ((clients.map (fun p => ScheduledClient.mk0 p.1 p.2)).getD j
          (ScheduledClient.mk0 0 ""))
        = ((clients.getD j (0, "")).1, (clients.getD j (0, "")).2) := by
    intro j hj
    rw [List.getD_eq_getElem?_getD, List.getD_eq_getElem?_getD, List.getElem?_map]
    rw [List.getElem?_eq_getElem (show j < clients.length from hj)]
    simp [nodeKey, ScheduledClient.mk0]
  have hne_k : ∀ k, ((nextIter s0 nowf k).nodes.isEmpty) = false := by
    intro k
    obtain ⟨ihlen, _, _⟩ := nextIter_spec s0 nowf N hlen hpos hcur k
    rw [List.isEmpty_eq_false_iff_exists_mem]
    refine List.exists_mem_of_ne_nil _ ?_
    intro hnil
    rw [hnil] at ihlen
    simp at ihlen
    omega
  have key : ∀ k, (nextResult s0 nowf k).map
      (fun n => (n.socket_fd, n.user_id, n.last_scheduled))
      = some ((clients.getD (k % N) (0, "")).1, (clients.getD (k % N) (0, "")).2, nowf k) := by
    intro k
    obtain ⟨ihlen, ihmap, ihcur⟩ := nextIter_spec s0 nowf N hlen hpos hcur k
    have hmod : k % N < N := Nat.mod_lt _ hpos
    have hres : nextResult s0 nowf k
        = some { (nextIter s0 nowf k).nodes.getD (k % N) (ScheduledClient.mk0 0 "") with
                 last_scheduled := nowf k } := by
      unfold nextResult RoundRobinScheduler.get_next_client
      rw [hne_k k]
      simp only [Bool.false_eq_true, if_neg, not_false_eq_true]
      rw [ihcur]
    have hkey : nodeKey ((nextIter s0 nowf k).nodes.getD (k % N) (ScheduledClient.mk0 0 ""))
        = ((clients.getD (k % N) (0, "")).1, (clients.getD (k % N) (0, "")).2) := by
      have h1 := nodeKey_getD_of_map_eq _ _ (k % N) ihmap (by omega)
      rw [h1]
      have : s0.nodes = clients.map (fun p => ScheduledClient.mk0 p.1 p.2) := by rw [hs0]
      rw [this]
      exact hgetD _ hmod
    rw [hres]
    simp only [nodeKey, Prod.mk.injEq] at hkey
    set nd := (nextIter s0 nowf k).nodes.getD (k % N) (ScheduledClient.mk0 0 "")
    set cl := clients.getD (k % N) (0, "")
    simp [Option.map, hkey.1, hkey.2]
  refine ⟨?_, ?_, ?_, ?_, ?_⟩
  · intro k hk
    have := key k
    rwa [Nat.mod_eq_of_lt hk] at this
  · have := key N
    rw [Nat.mod_self] at this
    cases hres : nextResult s0 nowf N with
    | none => rw [hres] at this; cases this
    | some node =>
      rw [hres] at this
      simp only [Option.map, Option.some.injEq, Prod.mk.injEq] at this
      simp [Option.map, this.1, this.2.1]
  · intro k
    obtain ⟨_, _, ihcur⟩ := nextIter_spec s0 nowf N hlen hpos hcur (k + 1)
    exact ihcur
  · intro k
    obtain ⟨ihlen, ihmap, ihcur⟩ := nextIter_spec s0 nowf N hlen hpos hcur k
    have hmod : k % N < N := Nat.mod_lt _ hpos
    have hstep : nextIter s0 nowf (k + 1)
        = ((nextIter s0 nowf k).get_next_client (nowf k)).2 := rfl
    rw [hstep]
    unfold RoundRobinScheduler.get_next_client
    rw [hne_k k]
    simp only [Bool.false_eq_true, if_neg, not_false_eq_true]
    rw [ihcur, getD_set_self _ _ _ _ (by omega)]
  · intro now
    rfl

/-- Three distinct clients in insertion order, used by the C5 witness. -/
def clientsW : List (Int × String) := [(1, "a"), (2, "b"), (3, "c")]

/-- Clock values observed by successive `get_next_client` calls in the C5
witness. -/
def nowfW : Nat → Int := fun i => 100 + i

theorem round_robin_insertion_order_witness :
    (nextResult (addClients RoundRobinScheduler.empty clientsW) nowfW 1).map
        (fun n => (n.socket_fd, n.user_id, n.last_scheduled)) = some (2, "b", 101) ∧
    (nextResult (addClients RoundRobinScheduler.empty clientsW) nowfW 3).map
        (fun n => (n.socket_fd, n.user_id)) = some (1, "a") := by
  have h := round_robin_insertion_order clientsW nowfW (by decide) (by decide)
  refine ⟨?_, ?_⟩
  · have h1 := h.1 1 (by decide)
    simpa [clientsW, nowfW] using h1
  · have h2 := h.2.1
    simpa [clientsW, nowfW] using h2

/-! ## Connection registry and `broadcast_message` (server.cpp)

The registry `std::map<int, ClientInfo> clients` is embedded as an
association list in iteration (key) order; `std::map` key uniqueness is the
`Nodup` hypothesis on the key column. The network is modelled by a
predicate `sendOk` saying which `send(fd, …)` calls return a positive
count. -/

/-- `struct ClientInfo` from common.h. -/
structure ClientInfo where
  socket_fd : Int
  user_id : String
  connect_time : Int
  last_active : Int
  active : Bool
  deriving Repr, DecidableEq

/-- `struct Message` (common.h): the fields the server logic reads. The
fixed-width `char` arrays `sender`/`payload` are modelled as strings, the
`uint8_t` kind tag as a `Nat`. -/
structure Message where
  type : Nat
  sender : String
  payload : String
  payload_size : Nat
  timestamp : Int
  deriving Repr, DecidableEq

/-- First pass of `broadcast_message` (the loop held under `clients_mutex`):
attempt one send to every active connection whose socket differs from the
sender. Returns the sockets that received the message (successful sends, in
iteration order) and the `failed_sockets` list. The registry itself is not
touched by this pass. -/
def broadcastPass1 (clients : List (Int × ClientInfo)) (sender_socket : Int)
    (sendOk : Int → Bool) : List Int × List Int :=
  match clients with
  | [] => ([], [])
  | (fd, info) :: rest =>
    let r := broadcastPass1 rest sender_socket sendOk
    if fd ≠ sender_socket ∧ info.active then
      if sendOk fd then (fd :: r.1, r.2) else (r.1, fd :: r.2)
    else r

/-- One iteration of the cleanup loop: `clients.find(fd)` and, if present,
`it->second.active = false`. The entry is flagged, never erased. -/
def markInactive (clients : List (Int × ClientInfo)) (fd : Int) :
    List (Int × ClientInfo) :=
  clients.map (fun p => if p.1 = fd then (p.1, { p.2 with active := false }) else p)

/-- Second pass of `broadcast_message`, run after the iteration lock has
been released: flag every failed socket inactive. -/
def broadcastPass2 (clients : List (Int × ClientInfo)) (failed : List Int) :
    List (Int × ClientInfo) :=
  failed.foldl markInactive clients

/-- Result of one `broadcast_message` call: which sockets got the message,
which sends failed, the updated registry, the updated cache, and the
`messages_sent` counter. -/
structure BroadcastResult where
  delivered : List Int
  failed : List Int
  clients : List (Int × ClientInfo)
  cache : MessageCache
  messages_sent : Nat
  deriving Repr

/-- `broadcast_message(msg, sender_socket)` (server.cpp): pass 1 sends to
every active non-sender peer under the lock (bumping `messages_sent` per
success), pass 2 flags the failed sockets inactive, and finally the message
is inserted into the cache keyed by its sender and timestamp —
unconditionally, whatever the message kind and however the sends went.
`now` is the clock value read by `MessageCache::insert`. -/
def broadcast_message (clients : List (Int × ClientInfo)) (cache : MessageCache)
    (messages_sent : Nat) (msg : Message) (sender_socket : Int)
    (sendOk : Int → Bool) (now : Int) : BroadcastResult :=
  let r := broadcastPass1 clients sender_socket sendOk
  { delivered := r.1,
    failed := r.2,
    clients := broadcastPass2 clients r.2,
    cache := (cache.insert msg.sender msg.payload msg.timestamp now).2,
    messages_sent := messages_sent + r.1.length }

theorem broadcastPass1_delivered (clients : List (Int × ClientInfo)) (ss : Int)
    (sendOk : Int → Bool) :
    (broadcastPass1 clients ss sendOk).1 =
      (clients.filter (fun p => decide (p.1 ≠ ss) && p.2.active && sendOk p.1)).map
        Prod.fst := by
  induction clients with
  | nil => rfl
  | cons p rest ih =>
    obtain ⟨fd, info⟩ := p
    by_cases h1 : fd ≠ ss ∧ info.active = true
    · by_cases h2 : sendOk fd = true
      · simp [broadcastPass1, h1, h2, List.filter_cons, h1.1, h1.2, ih]
      · simp only [Bool.not_eq_true] at h2
        simp [broadcastPass1, h1, h2, List.filter_cons, h1.1, h1.2, ih]
    · have h3 : ¬ (fd ≠ ss) ∨ info.active = false := by
        by_cases hA : fd ≠ ss
        · right
          rcases Bool.eq_false_or_eq_true info.active with hb | hb
          · exact absurd ⟨hA, hb⟩ h1
          · exact hb
        · left; exact hA
      rcases h3 with h3 | h3
      · simp only [ne_eq, not_not] at h3
        simp [broadcastPass1, h3, List.filter_cons, ih]
      · simp [broadcastPass1, h3, List.filter_cons, ih]
  
theorem broadcastPass1_failed (clients : List (Int × ClientInfo)) (ss : Int)
    (sendOk : Int → Bool) :
    (broadcastPass1 clients ss sendOk).2 =
      (clients.filter (fun p => decide (p.1 ≠ ss) && p.2.active && !sendOk p.1)).map
        Prod.fst := by
  induction clients with
  | nil => rfl
  | cons p rest ih =>
    obtain ⟨fd, info⟩ := p
    by_cases h1 : fd ≠ ss ∧ info.active = true
    · by_cases h2 : sendOk fd = true
      · simp [broadcastPass1, h1, h2, List.filter_cons, h1.1, h1.2, ih]
      · simp only [Bool.not_eq_true] at h2
        simp [broadcastPass1, h1, h2, List.filter_cons, h1.1, h1.2, ih]
    · have h3 : ¬ (fd ≠ ss) ∨ info.active = false := by
        by_cases hA : fd ≠ ss
        · right
          rcases Bool.eq_false_or_eq_true info.active with hb | hb
          · exact absurd ⟨hA, hb⟩ h1
          · exact hb
        · left; exact hA
      rcases h3 with h3 | h3
      · simp only [ne_eq, not_not] at h3
        simp [broadcastPass1, h3, List.filter_cons, ih]
      · simp [broadcastPass1, h3, List.filter_cons, ih]

theorem filter_failed_single (clients : List (Int × ClientInfo)) (ss f : Int)
    (finfo : ClientInfo) (sendOk : Int → Bool)
    (hkeys : (clients.map Prod.fst).Nodup)
    (hmem : (f, finfo) ∈ clients) (hfs : f ≠ ss) (hfa : finfo.active = true)
    (hfail : sendOk f = false)
    (hothers : ∀ p ∈ clients, p.1 ≠ ss → p.2.active = true → p.1 ≠ f →
      sendOk p.1 = true) :
    clients.filter (fun p => decide (p.1 ≠ ss) && p.2.active && !sendOk p.1)
      = [(f, finfo)] := by
  induction clients with
  | nil => cases hmem
  | cons q rest ih =>
    have hkeysc : (q.1 :: rest.map Prod.fst).Nodup := by simpa using hkeys
    have hkeys2 := List.nodup_cons.mp hkeysc
    rcases List.mem_cons.mp hmem with hq | hq
    · subst hq
      have hpredf : (fun p : Int × ClientInfo =>
          decide (p.1 ≠ ss) && p.2.active && !sendOk p.1) (f, finfo) = true := by
        simp [hfs, hfa, hfail]
      have hrest : rest.filter
          (fun p => decide (p.1 ≠ ss) && p.2.active && !sendOk p.1) = [] := by
        rw [List.filter_eq_nil_iff]
        intro p hp
        intro hpred
        simp only [Bool.and_eq_true, decide_eq_true_eq, Bool.not_eq_true'] at hpred
        have hpf : p.1 ≠ f := by
          intro heq
          have hmm : p.1 ∈ rest.map Prod.fst := List.mem_map_of_mem Prod.fst hp
          rw [heq] at hmm
          exact hkeys2.1 hmm
        have := hothers p (List.mem_cons_of_mem _ hp) hpred.1.1 hpred.1.2 hpf
        rw [this] at hpred
        cases hpred.2
      rw [@List.filter_cons_of_pos _
        (fun p : Int × ClientInfo => decide (p.1 ≠ ss) && p.2.active && !sendOk p.1)
        (f, finfo) rest hpredf, hrest]
    · have hqf : q.1 ≠ f := by
        intro heq
        have hmm : f ∈ rest.map Prod.fst := List.mem_map_of_mem Prod.fst hq
        rw [← heq] at hmm
        exact hkeys2.1 hmm
      have hpred : (fun p : Int × ClientInfo =>
          decide (p.1 ≠ ss) && p.2.active && !sendOk p.1) q = false := by
        simp only []
        by_cases hA : q.1 ≠ ss
        · by_cases hB : q.2.active = true
          · have := hothers q (List.mem_cons_self _ _) hA hB hqf
            simp [this]
          · simp only [Bool.not_eq_true] at hB
            simp [hB]
        · simp only [ne_eq, not_not] at hA
          simp [hA]
      rw [@List.filter_cons_of_neg _
        (fun p : Int × ClientInfo => decide (p.1 ≠ ss) && p.2.active && !sendOk p.1)
        q rest (by rw [hpred]; exact Bool.false_ne_true)]
      exact ih hkeys2.2 hq (fun p hp => hothers p (List.mem_cons_of_mem _ hp))

theorem markInactive_keys (clients : List (Int × ClientInfo)) (fd : Int) :
    (markInactive clients fd).map Prod.fst = clients.map Prod.fst := by
  induction clients with
  | nil => rfl
  | cons p rest ih =>
    by_cases h : p.1 = fd
    · simp [markInactive, h] at ih ⊢
      simpa [markInactive] using ih
    · simp [markInactive, h] at ih ⊢
      simpa [markInactive] using ih

theorem broadcastPass2_keys (failed : List Int) (clients : List (Int × ClientInfo)) :
    (broadcastPass2 clients failed).map Prod.fst = clients.map Prod.fst := by
  induction failed generalizing clients with
  | nil => rfl
  | cons g rest ih =>
    have hstep : broadcastPass2 clients (g :: rest)
        = broadcastPass2 (markInactive clients g) rest := rfl
    rw [hstep, ih, markInactive_keys]

theorem markInactive_mem (clients : List (Int × ClientInfo)) (fd : Int)
    (info : ClientInfo) (hmem : (fd, info) ∈ clients) :
    (fd, { info with active := false }) ∈ markInactive clients fd := by
  unfold markInactive
  refine List.mem_map.mpr ⟨(fd, info), hmem, ?_⟩
  simp

theorem markInactive_mem_other (clients : List (Int × ClientInfo)) (fd : Int)
    (p : Int × ClientInfo) (hmem : p ∈ clients) (hne : p.1 ≠ fd) :
    p ∈ markInactive clients fd := by
  unfold markInactive
  refine List.mem_map.mpr ⟨p, hmem, ?_⟩
  simp [hne]

theorem markInactive_mem_inactive (clients : List (Int × ClientInfo)) (g fd : Int)
    (info : ClientInfo) (hmem : (fd, info) ∈ clients) (hin : info.active = false) :
    (fd, info) ∈ markInactive clients g := by
  by_cases h : fd = g
  · subst h
    have := markInactive_mem clients fd info hmem
    have heta : ({ info with active := false } : ClientInfo) = info := by
      cases info
      simp_all
    rwa [heta] at this
  · exact markInactive_mem_other clients g (fd, info) hmem h

theorem broadcastPass2_mem_inactive (failed : List Int)
    (clients : List (Int × ClientInfo)) (fd : Int) (info : ClientInfo)
    (hmem : (fd, info) ∈ clients) (hin : info.active = false) :
    (fd, info) ∈ broadcastPass2 clients failed := by
  induction failed generalizing clients with
  | nil => exact hmem
  | cons g rest ih =>
    exact ih (markInactive clients g) (markInactive_mem_inactive clients g fd info hmem hin)

theorem broadcastPass2_flags (failed : List Int) (clients : List (Int × ClientInfo))
    (fd : Int) (info : ClientInfo)
    (hmem : (fd, info) ∈ clients) (hf : fd ∈ failed) :
    (fd, { info with active := false }) ∈ broadcastPass2 clients failed := by
  induction failed generalizing clients info with
  | nil => cases hf
  | cons g rest ih =>
    have hstep : broadcastPass2 clients (g :: rest)
        = broadcastPass2 (markInactive clients g) rest := rfl
    rw [hstep]
    by_cases h : fd = g
    · subst h
      exact broadcastPass2_mem_inactive rest _ fd _ (markInactive_mem clients fd info hmem) rfl
    · have hf2 : fd ∈ rest := by
        rcases List.mem_cons.mp hf with hc | hc
        · exact absurd hc h
        · exact hc
      exact ih _ info (markInactive_mem_other clients g (fd, info) hmem h) hf2

/-- C6: broadcasting to the active non-sender connections when exactly one
send fails marks only that one connection inactive — its registry entry is
flagged, every other entry is untouched — and each of the other active
non-sender connections receives exactly one copy of the message, with at
most one delivery attempt per peer (the delivered list has no duplicates)
and no copy delivered to the failed peer. -/
theorem broadcast_one_failure_isolated (clients : List (Int × ClientInfo))
    (cache : MessageCache) (ms : Nat) (msg : Message) (ss : Int)
    (sendOk : Int → Bool) (now : Int) (f : Int) (finfo : ClientInfo)
    (hkeys : (clients.map Prod.fst).Nodup)
    (hmem : (f, finfo) ∈ clients) (hfs : f ≠ ss) (hfa : finfo.active = true)
    (hfail : sendOk f = false)
    (hothers : ∀ p ∈ clients, p.1 ≠ ss → p.2.active = true → p.1 ≠ f →
      sendOk p.1 = true) :
    (broadcast_message clients cache ms msg ss sendOk now).failed = [f] ∧
    (broadcast_message clients cache ms msg ss sendOk now).clients
      = markInactive clients f ∧
    (f, { finfo with active := false })
      ∈ (broadcast_message clients cache ms msg ss sendOk now).clients ∧
    (∀ p ∈ clients, p.1 ≠ f →
      p ∈ (broadcast_message clients cache ms msg ss sendOk now).clients) ∧
    (broadcast_message clients cache ms msg ss sendOk now).delivered.Nodup ∧
    (∀ p ∈ clients, p.1 ≠ ss → p.2.active = true → p.1 ≠ f →
      (broadcast_message clients cache ms msg ss sendOk now).delivered.count p.1
        = 1) ∧
    (broadcast_message clients cache ms msg ss sendOk now).delivered.count f
      = 0 := by
  have hfiltered := filter_failed_single clients ss f finfo sendOk hkeys hmem hfs hfa
    hfail hothers
  have hfailed : (broadcast_message clients cache ms msg ss sendOk now).failed = [f] := by
    show (broadcastPass1 clients ss sendOk).2 = [f]
    rw [broadcastPass1_failed, hfiltered]
    rfl
  have hclients : (broadcast_message clients cache ms msg ss sendOk now).clients
      = markInactive clients f := by
    show broadcastPass2 clients (broadcastPass1 clients ss sendOk).2
      = markInactive clients f
    rw [broadcastPass1_failed, hfiltered]
    rfl
  have hdeliv : (broadcast_message clients cache ms msg ss sendOk now).delivered
      = (clients.filter
          (fun p => decide (p.1 ≠ ss) && p.2.active && sendOk p.1)).map Prod.fst :=
    broadcastPass1_delivered clients ss sendOk
  have hnodup : (broadcast_message clients cache ms msg ss sendOk now).delivered.Nodup := by
    rw [hdeliv]
    exact List.Nodup.sublist
      (List.Sublist.map Prod.fst (List.filter_sublist clients)) hkeys
  refine ⟨hfailed, hclients, ?_, ?_, hnodup, ?_, ?_⟩
  · rw [hclients]
    exact markInactive_mem clients f finfo hmem
  · intro p hp hpf
    rw [hclients]
    exact markInactive_mem_other clients f p hp hpf
  · intro p hp hps hpa hpf
    have hsend := hothers p hp hps hpa hpf
    have hpfilter : p ∈ clients.filter
        (fun q => decide (q.1 ≠ ss) && q.2.active && sendOk q.1) :=
      List.mem_filter.mpr ⟨hp, by simp [hps, hpa, hsend]⟩
    have hpmem : p.1 ∈ (broadcast_message clients cache ms msg ss sendOk now).delivered := by
      rw [hdeliv]
      exact List.mem_map_of_mem Prod.fst hpfilter
    exact List.count_eq_one_of_mem hnodup hpmem
  · rw [List.count_eq_zero]
    intro hfmem
    rw [hdeliv] at hfmem
    obtain ⟨p, hpfil, hpf⟩ := List.mem_map.mp hfmem
    have := (List.mem_filter.mp hpfil).2
    simp only [Bool.and_eq_true, decide_eq_true_eq] at this
    rw [hpf, hfail] at this
    cases this.2

/-- Concrete two-client registry for the C6 witness and C7 counterexample:
Alice on socket 1, Bob on socket 2, both active. -/
def infoA : ClientInfo :=
  { socket_fd := 1, user_id := "Alice", connect_time := 0, last_active := 0,
    active := true }

def infoB : ClientInfo :=
  { socket_fd := 2, user_id := "Bob", connect_time := 0, last_active := 0,
    active := true }

def infoC : ClientInfo :=
  { socket_fd := 3, user_id := "Carol", connect_time := 0, last_active := 0,
    active := true }

def registryW : List (Int × ClientInfo) := [(1, infoA), (2, infoB), (3, infoC)]

/-- A text message from Alice. -/
def msgW : Message :=
  { type := 1, sender := "Alice", payload := "hi", payload_size := 2,
    timestamp := 7 }

/-- Network model in which only the send to socket 2 fails. -/
def sendOkW : Int → Bool := fun fd => decide (fd ≠ 2)

theorem broadcast_one_failure_isolated_witness :
    (broadcast_message registryW cacheW0 0 msgW 1 sendOkW 0).failed = [2] ∧
    (broadcast_message registryW cacheW0 0 msgW 1 sendOkW 0).delivered.count 3 = 1 ∧
    (broadcast_message registryW cacheW0 0 msgW 1 sendOkW 0).delivered.count 2 = 0 := by
  have h := broadcast_one_failure_isolated registryW cacheW0 0 msgW 1 sendOkW 0 2 infoB
    (by decide) (by decide) (by decide) (by decide) (by decide)
    (by decide)
  exact ⟨h.1, h.2.2.2.2.2.1 (3, infoC) (by decide) (by decide) (by decide) (by decide),
    h.2.2.2.2.2.2⟩

/-- C7 counterexample: socket 2's send fails during the broadcast, yet
socket 2 is still a key of the registry after the call — it was flagged
inactive, not physically removed, so the claim that the connection is
"physically removed from the registry in a second pass" is false on this
input. -/
theorem broadcast_failed_not_removed_counterexample :
    (broadcast_message registryW cacheW0 0 msgW 1 sendOkW 0).failed = [2] ∧
    (broadcast_message registryW cacheW0 0 msgW 1 sendOkW 0).clients.map Prod.fst
      = [1, 2, 3] ∧
    (2, { infoB with active := false })
      ∈ (broadcast_message registryW cacheW0 0 msgW 1 sendOkW 0).clients ∧
    ¬ (2 ∉ (broadcast_message registryW cacheW0 0 msgW 1 sendOkW 0).clients.map
        Prod.fst) := by
  refine ⟨by decide, by decide, by decide, by decide⟩

/-- C7 (amended): a failed send does not remove the connection from the
registry — neither during the iteration (the first pass never mutates the
registry; the whole registry update is the second pass, taken after the
iteration lock is dropped) nor in the second pass itself, which only flags
the connection inactive: the key set of the registry is unchanged by the
call and the failed connection's entry is still present, flagged inactive. -/
theorem broadcast_failed_flagged_second_pass (clients : List (Int × ClientInfo))
    (cache : MessageCache) (ms : Nat) (msg : Message) (ss : Int)
    (sendOk : Int → Bool) (now : Int) (f : Int) (finfo : ClientInfo)
    (hmem : (f, finfo) ∈ clients) (hfs : f ≠ ss) (hfa : finfo.active = true)
    (hfail : sendOk f = false) :
    f ∈ (broadcast_message clients cache ms msg ss sendOk now).failed ∧
    (broadcast_message clients cache ms msg ss sendOk now).clients
      = broadcastPass2 clients
          (broadcast_message clients cache ms msg ss sendOk now).failed ∧
    (broadcast_message clients cache ms msg ss sendOk now).clients.map Prod.fst
      = clients.map Prod.fst ∧
    (f, { finfo with active := false })
      ∈ (broadcast_message clients cache ms msg ss sendOk now).clients := by
  have hfmem : f ∈ (broadcast_message clients cache ms msg ss sendOk now).failed := by
    show f ∈ (broadcastPass1 clients ss sendOk).2
    rw [broadcastPass1_failed]
    refine List.mem_map_of_mem Prod.fst (List.mem_filter.mpr ⟨hmem, ?_⟩)
    simp [hfs, hfa, hfail]
  refine ⟨hfmem, rfl, broadcastPass2_keys _ clients, ?_⟩
  exact broadcastPass2_flags _ clients f finfo hmem hfmem

theorem broadcast_failed_flagged_second_pass_witness :
    2 ∈ (broadcast_message registryW cacheW0 0 msgW 1 sendOkW 0).failed ∧
    (broadcast_message registryW cacheW0 0 msgW 1 sendOkW 0).clients.map Prod.fst
      = registryW.map Prod.fst := by
  have h := broadcast_failed_flagged_second_pass registryW cacheW0 0 msgW 1 sendOkW 0 2
    infoB (by decide) (by decide) (by decide) (by decide)
  exact ⟨h.1, h.2.2.1⟩

/-- C10: every `broadcast_message` call inserts the broadcast message into
the cache keyed by its sender and timestamp — for every message kind (the
kind tag is universally quantified, so join and leave notifications
included), and the resulting cache does not depend on the registry
contents, the excluded sender, or which sends succeeded (in particular it
is the same when there is no peer at all). -/
theorem broadcast_always_inserts_into_cache (clients clients2 : List (Int × ClientInfo))
    (cache : MessageCache) (ms ms2 : Nat) (msg : Message) (ss ss2 : Int)
    (sendOk sendOk2 : Int → Bool) (now : Int) :
    (broadcast_message clients cache ms msg ss sendOk now).cache
      = (cache.insert msg.sender msg.payload msg.timestamp now).2 ∧
    (broadcast_message clients cache ms msg ss sendOk now).cache
      = (broadcast_message clients2 cache ms2 msg ss2 sendOk2 now).cache ∧
    (broadcast_message [] cache ms msg ss sendOk now).cache
      = (cache.insert msg.sender msg.payload msg.timestamp now).2 :=
  ⟨rfl, rfl, rfl⟩

/-! ## The `handle_client` receive loop (server.cpp)

One loop iteration does `recv(client_socket, &msg, sizeof(Message), 0)` and
branches on the byte count: a negative return with `EWOULDBLOCK`/`EAGAIN`
is a timeout (continue), any other negative return breaks, and a
non-negative count is kept only when it equals `sizeof(Message)` — the code
breaks on `bytes == 0 || bytes != sizeof(Message)`. We embed one iteration
as a step function over receive events and the loop as a fold over a finite
schedule of events. -/

/-- `sizeof(Message)`: 1 (`type`) + 3 (`padding1`) + 4 (`user_id`) + 4
(`payload_size`) + 64 (`sender`) + 4096 (`payload`) + 4 (tail padding) + 8
(`timestamp`) bytes. Only its comparison with a frame's byte count matters
to the properties proved here. -/
def sizeof_Message : Nat := 4184

/-- What one `recv` call produced. -/
inductive RecvEvent where
  | timeout
  | fail
  | frame (bytes : Nat) (msg : Message)
  deriving Repr, DecidableEq

/-- Outcome of one iteration of the receive loop. -/
inductive LoopStep where
  | wait
  | handle (msg : Message)
  | stop
  deriving Repr, DecidableEq

/-- One iteration of the message loop in `handle_client`. -/
def recvStep (ev : RecvEvent) : LoopStep :=
  match ev with
  | .timeout => .wait
  | .fail => .stop
  | .frame bytes msg =>
    if bytes = 0 ∨ bytes ≠ sizeof_Message then .stop else .handle msg

/-- The receive loop over a finite schedule of events: the messages that
reach the dispatch `switch`, and whether the loop broke out (`true`) or
merely ran out of scheduled events (`false`). -/
def runRecvLoop (events : List RecvEvent) : List Message × Bool :=
  match events with
  | [] => ([], false)
  | ev :: rest =>
    match recvStep ev with
    | .wait => runRecvLoop rest
    | .stop => ([], true)
    | .handle msg =>
      let r := runRecvLoop rest
      (msg :: r.1, r.2)

/-- C8 counterexample: a 10-byte frame does not leave the loop running — it
breaks it. The mismatched frame is indeed not processed, but the following
well-sized frame is never seen either, because the connection's message
loop has terminated; whereas a well-sized frame alone is processed and the
loop lives on. This refutes "the connection's message loop continues". -/
theorem frame_size_mismatch_counterexample :
    recvStep (RecvEvent.frame 10 msgW) = LoopStep.stop ∧
    runRecvLoop [RecvEvent.frame 10 msgW, RecvEvent.frame sizeof_Message msgW]
      = ([], true) ∧
    runRecvLoop [RecvEvent.frame sizeof_Message msgW] = ([msgW], false) := by
  refine ⟨by decide, by decide, by decide⟩

/-- C8 (amended): a received frame whose byte count does not match the
fixed wire-record size is discarded (it never reaches the dispatch switch)
but it terminates the connection's message loop — the code breaks out of
the loop, treating the mismatch like a disconnect, instead of continuing;
subsequent events are never processed. A timeout, by contrast, does leave
the loop running. -/
theorem frame_size_mismatch_breaks_loop (bytes : Nat) (msg : Message)
    (events : List RecvEvent) (hb : bytes ≠ sizeof_Message) :
    recvStep (RecvEvent.frame bytes msg) = LoopStep.stop ∧
    runRecvLoop (RecvEvent.frame bytes msg :: events) = ([], true) ∧
    recvStep RecvEvent.timeout = LoopStep.wait := by
  have h1 : recvStep (RecvEvent.frame bytes msg) = LoopStep.stop := by
    show (if bytes = 0 ∨ bytes ≠ sizeof_Message then LoopStep.stop
      else LoopStep.handle msg) = LoopStep.stop
    rw [if_pos (Or.inr hb)]
  refine ⟨h1, ?_, rfl⟩
  show (match recvStep (RecvEvent.frame bytes msg) with
    | .wait => runRecvLoop events
    | .stop => ([], true)
    | .handle msg => let r := runRecvLoop events; (msg :: r.1, r.2)) = ([], true)
  rw [h1]

theorem frame_size_mismatch_breaks_loop_witness :
    recvStep (RecvEvent.frame 10 msgW) = LoopStep.stop ∧
    runRecvLoop [RecvEvent.frame 10 msgW, RecvEvent.timeout] = ([], true) := by
  have h := frame_size_mismatch_breaks_loop 10 msgW [RecvEvent.timeout] (by decide)
  exact ⟨h.1, h.2.1⟩

/-! ## The ThreadPool worker loop (thread_pool.h / thread_pool.cpp)

`worker_thread` loops: wait on the condition variable until
`stop || !tasks.empty()`, return when `stop && tasks.empty()`, otherwise pop
the front task and execute it. The queue operations happen under
`queue_mutex`, so each round is one atomic step on the shared state; task
payloads are abstracted by identifiers, and executing a task appends its
identifier to an execution history. `~ThreadPool` sets `stop` and wakes the
workers, and `enqueue` refuses new tasks once `stop` is set, so during
shutdown the queue only drains. -/

/-- Shared pool state: the pending queue (front first), the stop flag and
the history of executed tasks. -/
structure PoolState where
  tasks : List Nat
  stop : Bool
  executed : List Nat
  deriving Repr, DecidableEq

/-- Outcome of one round of `worker_thread`. -/
inductive WorkerStep where
  | exit
  | ran (s2 : PoolState)
  | wait
  deriving Repr, DecidableEq

/-- One round of `ThreadPool::worker_thread` on the shared state: exit iff
the stop flag is set and the queue is empty; otherwise run the front task
if there is one, else keep waiting. -/
def worker_step (s : PoolState) : WorkerStep :=
  if s.stop = true ∧ s.tasks = [] then .exit
  else
    match s.tasks with
    | [] => .wait
    | t :: rest => .ran { s with tasks := rest, executed := s.executed ++ [t] }

theorem worker_step_ran (s s2 : PoolState) (h : worker_step s = .ran s2) :
    ∃ t rest, s.tasks = t :: rest ∧
      s2 = { s with tasks := rest, executed := s.executed ++ [t] } := by
  unfold worker_step at h
  by_cases hc : s.stop = true ∧ s.tasks = []
  · rw [if_pos hc] at h
    cases h
  · rw [if_neg hc] at h
    cases ht : s.tasks with
    | nil => rw [ht] at h; cases h
    | cons t rest =>
      rw [ht] at h
      cases h
      exact ⟨t, rest, rfl, rfl⟩

/-- Repeated `worker_step` until the worker stops making progress (exits or
parks on the condition variable). -/
def drain (s : PoolState) : PoolState :=
  match h : worker_step s with
  | .ran s2 => drain s2
  | .exit => s
  | .wait => s
termination_by s.tasks.length
decreasing_by
  obtain ⟨t, rest, h1, h2⟩ := worker_step_ran s s2 h
  subst h2
  simp [h1]

theorem drain_eq_of_ran (s s2 : PoolState) (h0 : worker_step s = .ran s2) :
    drain s = drain s2 := by
  conv_lhs => unfold drain
  split
  · rename_i s3 h
    rw [h0] at h
    cases h
    rfl
  · rename_i h
    rw [h0] at h
    cases h
  · rename_i h
    rw [h0] at h
    cases h

theorem drain_eq_self_of_exit (s : PoolState) (h0 : worker_step s = .exit) :
    drain s = s := by
  conv_lhs => unfold drain
  split
  · rename_i s3 h
    rw [h0] at h
    cases h
  · rfl
  · rfl

theorem drain_stop_spec (tasks : List Nat) : ∀ s : PoolState, s.stop = true →
    s.tasks = tasks →
    (drain s).executed = s.executed ++ tasks ∧ (drain s).tasks = [] ∧
    (drain s).stop = true := by
  induction tasks with
  | nil =>
    intro s hstop htasks
    have hws : worker_step s = .exit := by
      unfold worker_step
      rw [if_pos ⟨hstop, htasks⟩]
    rw [drain_eq_self_of_exit s hws, htasks]
    exact ⟨by simp, rfl, hstop⟩
  | cons t rest ih =>
    intro s hstop htasks
    have hws : worker_step s
        = .ran { s with tasks := rest, executed := s.executed ++ [t] } := by
      unfold worker_step
      rw [if_neg (by rw [htasks]; rintro ⟨ha, he⟩; cases he)]
      rw [htasks]
    rw [drain_eq_of_ran s _ hws]
    obtain ⟨ih1, ih2, ih3⟩ := ih { s with tasks := rest, executed := s.executed ++ [t] }
      hstop rfl
    refine ⟨?_, ih2, ih3⟩
    rw [ih1]
    simp

/-- C9: once shutdown has begun (the stop flag is set, so `enqueue` admits
no new work), every task already in the queue still runs to completion
before the workers exit: draining the pool executes exactly the queued
tasks, appended in order to the execution history, leaves the queue empty,
and ends in the state where the worker's loop returns; and in general a
worker round exits if and only if the stop flag is set and the queue is
empty. -/
theorem queued_tasks_complete_before_exit (s : PoolState) (hstop : s.stop = true) :
    (drain s).executed = s.executed ++ s.tasks ∧
    (drain s).tasks = [] ∧
    worker_step (drain s) = WorkerStep.exit ∧
    (∀ s2 : PoolState, worker_step s2 = WorkerStep.exit ↔
      (s2.stop = true ∧ s2.tasks = [])) := by
  obtain ⟨h1, h2, h3⟩ := drain_stop_spec s.tasks s hstop rfl
  have hexit : ∀ s2 : PoolState, worker_step s2 = WorkerStep.exit ↔
      (s2.stop = true ∧ s2.tasks = []) := by
    intro s2
    constructor
    · intro h
      by_cases hc : s2.stop = true ∧ s2.tasks = []
      · exact hc
      · unfold worker_step at h
        rw [if_neg hc] at h
        cases ht : s2.tasks with
        | nil => rw [ht] at h; cases h
        | cons t rest => rw [ht] at h; cases h
    · intro hc
      unfold worker_step
      rw [if_pos hc]
  exact ⟨h1, h2, (hexit (drain s)).mpr ⟨h3, h2⟩, hexit⟩

theorem queued_tasks_complete_before_exit_witness :
    (drain { tasks := [1, 2, 3], stop := true, executed := [] }).executed
      = [1, 2, 3] ∧
    (drain { tasks := [1, 2, 3], stop := true, executed := [] }).tasks = [] := by
  have h := queued_tasks_complete_before_exit
    { tasks := [1, 2, 3], stop := true, executed := [] } rfl
  exact ⟨by simpa using h.1, h.2.1⟩
